import Mathlib

/-!
Shallow embedding of the Web Console task-execution engine (`webconsole.go`).

The Go program keeps global maps (tokens, running tasks, task outputs, run
times); we model the maps as association lists and each Go function as a pure
Lean function on explicit state.  Strings are modelled as `String` / `List
Char`; Go's byte-oriented string functions are modelled on characters, which
agrees with the source on well-formed UTF-8 for the ASCII separators used
(space, double quote, colon, newline).  Go `while` loops whose bound is the
string/list length are embedded with an explicit fuel argument equal to that
length, which keeps every definition structurally recursive and executable.
-/

namespace WebConsole

/-- Association-list lookup, modelling a read of a Go map (first match wins;
the Go maps here never hold duplicate keys). -/
def lookupA {κ α : Type} [DecidableEq κ] : List (κ × α) → κ → Option α
  | [], _ => none
  | p :: rest, k => if p.1 = k then some p.2 else lookupA rest k

/-- Association-list insert/overwrite, modelling a Go map assignment
`m[k] = v`. -/
def insertA {κ α : Type} [DecidableEq κ] (m : List (κ × α)) (k : κ) (v : α) :
    List (κ × α) :=
  if m.any (fun p => p.1 = k) then
    m.map (fun p => if p.1 = k then (k, v) else p)
  else
    m ++ [(k, v)]

/-- ASCII fragment of Go's `unicode.IsSpace`, the character class used by
`strings.TrimSpace`.  (Non-ASCII space characters are not modelled; every
theorem below stays within ASCII.) -/
def isSpaceChar (c : Char) : Bool :=
  c = ' ' || c = '\t' || c = '\n' || c = '\x0b' || c = '\x0c' || c = '\r'

/-- Left half of Go's `strings.TrimSpace`. -/
def trimLeftChars (l : List Char) : List Char :=
  l.dropWhile isSpaceChar

/-- Right half of Go's `strings.TrimSpace`. -/
def trimRightChars (l : List Char) : List Char :=
  (l.reverse.dropWhile isSpaceChar).reverse

/-- Go's `strings.TrimSpace` (ASCII fragment). -/
def goTrimSpace (l : List Char) : List Char :=
  trimRightChars (trimLeftChars l)

/-- Go's `strings.SplitN(s, sep, 2)` for a one-character separator: the part
before the first occurrence of `c`, and — when `c` occurs — the rest.
`(l, none)` models the one-element slice `[s]` returned when `c` is absent. -/
def splitFirst (c : Char) : List Char → List Char × Option (List Char)
  | [] => ([], none)
  | x :: xs =>
    if x = c then ([], some xs)
    else
      let r := splitFirst c xs
      (x :: r.1, r.2)

/-- Loop body of Go `parseCommandString`, with fuel for the `for theString != ""`
loop (each iteration strictly shortens the string, so `s.length` fuel is
enough; fuel is never exhausted on the paths the theorems use). -/
def parseCmdCharsGo : Nat → List Char → List (List Char)
  | 0, _ => []
  | fuel + 1, s =>
    if s.isEmpty then []
    else
      let t := goTrimSpace s
      if t.head? = some '\"' then
        match splitFirst '\"' t.tail with
        | (field, some rest) => field :: parseCmdCharsGo fuel rest
        | (field, none) => [field]
      else
        match splitFirst ' ' t with
        | (field, some rest) => field :: parseCmdCharsGo fuel rest
        | (field, none) => [field]

/-- Go `parseCommandString` on character lists. -/
def parseCmdChars (s : List Char) : List (List Char) :=
  parseCmdCharsGo s.length s

/-- Go `parseCommandString`: split a command line into fields, treating a
double-quoted section as one field with the quotes stripped. -/
def parseCommandString (s : String) : List String :=
  (parseCmdChars s.data).map (fun cs => String.mk cs)

/-- Program/argument extraction in the `runTask` handler:
`commandArray := parseCommandString(...)`, `commandArgs = commandArray[1:]`
(guarded by `len > 0`), then the unguarded read `commandArray[0]`.
`none` models the Go runtime panic (index out of range) that the unguarded
read raises when the array is empty. -/
def buildCommand (command : String) : Option (String × List String) :=
  let commandArray := parseCommandString command
  let commandArgs := if commandArray.length > 0 then commandArray.drop 1 else []
  match commandArray.head? with
  | none => none
  | some program => some (program, commandArgs)

/-- The `tokenTimeout` constant (seconds of token validity). -/
def tokenTimeout : Int := 600

/-- The `tokenCheckPeriod` constant (seconds between sweep passes). -/
def tokenCheckPeriod : Int := 60

/-- One pass of the `clearExpiredTokens` loop body: delete every token with
`currentTimestamp - tokenTimeout > timestamp`. -/
def clearExpiredTokensPass (currentTimestamp : Int)
    (tokens : List (String × Int)) : List (String × Int) :=
  tokens.filter (fun p => !(currentTimestamp - tokenTimeout > p.2))

/-- Go map read `tokens[token]`: the stored timestamp, or the zero value `0`
when the token is absent. -/
def tokensGet (tokens : List (String × Int)) (token : String) : Int :=
  (lookupA tokens token).getD 0

/-- The handler's token-validity test: `tokens[token] == 0` means invalid,
anything else authorises. -/
def isValidTokenCheck (tokens : List (String × Int)) (token : String) : Bool :=
  !(tokensGet tokens token = 0)

/-- The handler's timestamp refresh on every authorised request:
`tokens[token] = currentTimestamp`. -/
def refreshToken (token : String) (currentTimestamp : Int)
    (tokens : List (String × Int)) : List (String × Int) :=
  insertA tokens token currentTimestamp

/-- Bcrypt comparison, modelling `bcrypt.CompareHashAndPassword` from
`golang.org/x/crypto/bcrypt`: a stored hash shorter than the minimum encoded
size (59 bytes) fails to decode and yields an error — in particular the empty
hash never matches any password.  Whether a well-formed hash matches a
password is abstracted as the parameter `hashMatches`. -/
def bcryptCompareOk (hashMatches : String → String → Bool)
    (theHash thePassword : String) : Bool :=
  if theHash.length < 59 then false else hashMatches theHash thePassword

/-- Go `checkPasswordHash`: true when password and hash are both empty,
otherwise defer to bcrypt. -/
def checkPasswordHash (hashMatches : String → String → Bool)
    (thePassword theHash : String) : Bool :=
  if thePassword = "" && theHash = "" then true
  else bcryptCompareOk hashMatches theHash thePassword

/-- The handler's no-token authorisation branch: authorised iff
`checkPasswordHash(secret, taskDetails["secret"])`; on failure the reason is
"incorrect secret" (on success the initial "unknown error" value is unused). -/
def authorizeNoToken (hashMatches : String → String → Bool)
    (providedSecret storedSecret : String) : Bool × String :=
  if checkPasswordHash hashMatches providedSecret storedSecret then
    (true, "unknown error")
  else
    (false, "incorrect secret")

/-- Go `sort.Slice(taskRunTimes, ascending)`.  Any sorting algorithm gives the
same list on a totally ordered element type, so we use insertion sort. -/
def sortInts (l : List Int) : List Int :=
  List.insertionSort (fun a b => a ≤ b) l

/-- Loop body of the history-trimming loop, with fuel:
`for len >= 10 { times = times[1 : len-2] }`.  The Go slice `times[1:len-2]`
keeps the elements at indices `1 .. len-3`, i.e. drops the first element and
the last two.  Each iteration shortens the list by three, so `l.length` fuel
is always enough. -/
def trimRunTimesFuel : Nat → List Int → List Int
  | 0, l => l
  | fuel + 1, l =>
    if l.length ≥ 10 then trimRunTimesFuel fuel ((l.drop 1).take (l.length - 3))
    else l

/-- The history-trimming loop of `runTask`. -/
def trimRunTimes (l : List Int) : List Int :=
  trimRunTimesFuel l.length l

/-- End-of-run history update in `runTask`: append the new run time, sort
ascending, then trim. -/
def updateRunTimes (history : List Int) (runTime : Int) : List Int :=
  trimRunTimes (sortInts (history ++ [runTime]))

/-- Modelled from the spec / claim wording, for comparison with the code's
`trimRunTimes`: "while the length is at least 10 removes the smallest-index
element" — i.e. each iteration drops exactly one element, the head. -/
def claimTrimRunTimes : List Int → List Int :=
  fun l => claimTrimRunTimesFuel l.length l
where
  claimTrimRunTimesFuel : Nat → List Int → List Int
    | 0, l => l
    | fuel + 1, l =>
      if l.length ≥ 10 then claimTrimRunTimesFuel fuel (l.drop 1) else l

/-- Run-time estimation in the `runTask` handler: sum the recorded run times
with a loop, return 10.0 for an empty history and otherwise
`float64(totalRunTime / int64(len))` — an integer (Go, truncating) division
performed before the float conversion, so the value is exact. -/
def estimateDuration (runTimes : List Int) : Int :=
  let totalRunTime := runTimes.foldl (fun a b => a + b) 0
  if runTimes.length = 0 then 10
  else Int.tdiv totalRunTime runTimes.length

/-- In-memory engine state: the global maps of `webconsole.go` that the
process runner touches. -/
structure RunnerState where
  runningTasks : List String
  taskOutputs : List (String × List String)
  taskStartTimes : List (String × Int)
  taskStopTimes : List (String × Int)
  taskRunTimes : List (String × List Int)
deriving Repr, DecidableEq

/-- Outcome of the spawn attempt inside `runTask`: `StdoutPipe` may fail,
`Start` may fail, or the process runs and the capture loop reads a sequence
of chunks until EOF. -/
inductive SpawnOutcome
  | pipeError
  | startError
  | ran (chunks : List String)
deriving Repr, DecidableEq

/-- Output-capture loop of `runTask`: each read chunk is split on newlines
and the lines that are non-blank after trimming are appended. -/
def captureLines (chunks : List String) : List String :=
  chunks.flatMap
    (fun chunk =>
      (chunk.splitOn "\n").filter (fun line => !(goTrimSpace line.data).isEmpty))

/-- Go `taskIsRunning`: membership in the `runningTasks` map. -/
def taskIsRunning (theTaskID : String) (st : RunnerState) : Bool :=
  st.runningTasks.contains theTaskID

/-- The `runTask` goroutine.  `taskOutputs[id]` is reset first; if
`StdoutPipe` or `Start` fails the function just returns — in particular it
does NOT remove the task from `runningTasks` (the delete sits inside the
doubly-nested success branch) and reports nothing.  On a successful run it
captures output, records the stop time, folds the run time into the trimmed
history and finally deletes the task from `runningTasks`. -/
def runTask (theTaskID : String) (outcome : SpawnOutcome) (now : Int)
    (st : RunnerState) : RunnerState :=
  let st0 := { st with taskOutputs := insertA st.taskOutputs theTaskID [] }
  match outcome with
  | SpawnOutcome.pipeError => st0
  | SpawnOutcome.startError => st0
  | SpawnOutcome.ran chunks =>
    let outLines := captureLines chunks
    let startTime := (lookupA st.taskStartTimes theTaskID).getD 0
    let runTime := now - startTime
    let history := (lookupA st.taskRunTimes theTaskID).getD []
    { runningTasks := st.runningTasks.filter (fun t => !(t = theTaskID)),
      taskOutputs := insertA st0.taskOutputs theTaskID outLines,
      taskStartTimes := st.taskStartTimes,
      taskStopTimes := insertA st.taskStopTimes theTaskID now,
      taskRunTimes := insertA st.taskRunTimes theTaskID
        (updateRunTimes history runTime) }

/-- Result reported by the `/api/runTask` handler branch. -/
inductive StartResult
  | ok
  | rateLimited (limit remaining : Int)
  | panicked
deriving Repr, DecidableEq

/-- What the `/api/runTask` handler did: the response it produced and the
process (program, arguments) it created, if any. -/
structure StartOutcome where
  result : StartResult
  spawned : Option (String × List String)
deriving Repr, DecidableEq

/-- The `/api/runTask` handler branch (after authorisation): answer `OK` when
the task is already running; otherwise refuse with the rate-limit message when
`currentTimestamp - taskStopTimes[taskID] < rateLimit`; otherwise build the
command (which panics on an empty command line — `StartResult.panicked`),
record it as the spawned process and answer `OK`.  The reply `OK` is written
before the spawned process has run, so a later spawn failure inside the
`runTask` goroutine is never reported to this caller. -/
def runTaskHandler (isRunning : Bool) (currentTimestamp stopTime rateLimit : Int)
    (command : String) : StartOutcome :=
  if isRunning then { result := StartResult.ok, spawned := none }
  else if currentTimestamp - stopTime < rateLimit then
    { result := StartResult.rateLimited rateLimit
        (rateLimit - (currentTimestamp - stopTime)),
      spawned := none }
  else
    match buildCommand command with
    | none => { result := StartResult.panicked, spawned := none }
    | some pa => { result := StartResult.ok, spawned := some pa }

/-- The synthetic progress line `fmt.Sprintf("Progress: Progress %d%%", p)`. -/
def progressLine (percentage : Int) : String :=
  "Progress: Progress " ++ toString percentage ++ "%"

/-- The cap `if percentage > 100 { percentage = 100 }`. -/
def capPct (percentage : Int) : Int :=
  if percentage > 100 then 100 else percentage

/-- Result of one `/api/getTaskOutput` call: the new stored output buffer and
the lines written to the response. -/
structure OutputPollResult where
  newBuffer : List String
  response : List String
deriving Repr, DecidableEq

/-- The `/api/getTaskOutput` handler branch: when the task's `progress` flag
is "Y" a synthetic progress line is appended to the STORED output buffer
(`taskOutputs[taskID] = append(...)`) before the buffer is served from the
requested line onward; when the task is no longer running a final 100% line
(progress only) and `ERROR: EOF` are written to the response.  The raw
percentage `int((float64(now-start)/guess)*100)` is floating-point arithmetic
in the source and is abstracted here as the parameter `rawPercentage`; only
the cap at 100 is modelled. -/
def getTaskOutputPoll (progress : String) (running : Bool) (rawPercentage : Int)
    (outputLineNumber : Nat) (buffer : List String) : OutputPollResult :=
  let buf2 :=
    if progress = "Y" then buffer ++ [progressLine (capPct rawPercentage)]
    else buffer
  let served := buf2.drop outputLineNumber
  let response :=
    if running then served
    else
      served ++
        (if progress = "Y" then ["Progress: Progress 100%", "ERROR: EOF"]
         else ["ERROR: EOF"])
  { newBuffer := buf2, response := response }

/-- One line of the `getTaskDetails` config parser:
`itemSplit := strings.SplitN(line, ":", 2)` followed by the unconditional
reads `itemSplit[0]` and `itemSplit[1]`.  `none` models the Go runtime panic
(index out of range) on a line with no colon, where `SplitN` returns a
one-element slice. -/
def parseConfigLine (line : List Char) : Option (List Char × List Char) :=
  match splitFirst ':' line with
  | (key, some value) => some (goTrimSpace key, goTrimSpace value)
  | (_, none) => none

/-- The scanner loop of `getTaskDetails`: fold every config line into the
details map, propagating the panic of `parseConfigLine` as `none`. -/
def applyConfigLines : List (List Char) → List (List Char × List Char) →
    Option (List (List Char × List Char))
  | [], details => some details
  | line :: rest, details =>
    match parseConfigLine line with
    | some kv => applyConfigLines rest (insertA details kv.1 kv.2)
    | none => none

/-- Command-line token shapes for stating what `parseCommandString` does: a
plain (unquoted) field or a double-quoted field. -/
inductive CmdTok
  | plain (w : List Char)
  | quoted (w : List Char)
deriving Repr, DecidableEq

/-- Concrete characters a token occupies on the command line. -/
def renderTok : CmdTok → List Char
  | CmdTok.plain w => w
  | CmdTok.quoted w => '\"' :: w ++ ['\"']

/-- The field a token should parse to (quotes stripped). -/
def tokContent : CmdTok → List Char
  | CmdTok.plain w => w
  | CmdTok.quoted w => w

/-- A command line built from tokens separated by single spaces. -/
def renderToks : List CmdTok → List Char
  | [] => []
  | [t] => renderTok t
  | t :: rest => renderTok t ++ ' ' :: renderToks rest

/-- Does the list start with a non-whitespace character? -/
def headNonSpace (l : List Char) : Bool :=
  match l.head? with
  | some c => !isSpaceChar c
  | none => false

/-- Does the list end with a non-whitespace character? -/
def endsNonSpace (l : List Char) : Bool :=
  match l.getLast? with
  | some c => !isSpaceChar c
  | none => false

/-- Well-formedness of a token: a plain field is non-empty, contains no space
and no double quote, and does not begin or end with a whitespace character (a
whitespace character strictly inside a plain field, e.g. a tab, is allowed —
it does not separate fields); a quoted field merely contains no double quote.
Escape characters get no special treatment anywhere. -/
def wfTok : CmdTok → Bool
  | CmdTok.plain w =>
    decide (' ' ∉ w) && decide ('\"' ∉ w) && headNonSpace w && endsNonSpace w
  | CmdTok.quoted w => decide ('\"' ∉ w)

/-! ### Basic facts about the embedded helpers -/

theorem lookupA_nil {κ α : Type} [DecidableEq κ] (k : κ) :
    lookupA ([] : List (κ × α)) k = none := rfl

theorem lookupA_cons {κ α : Type} [DecidableEq κ] (p : κ × α)
    (rest : List (κ × α)) (k : κ) :
    lookupA (p :: rest) k = if p.1 = k then some p.2 else lookupA rest k := rfl

theorem splitFirst_snd_none_iff (c : Char) (l : List Char) :
    (splitFirst c l).2 = none ↔ c ∉ l := by
  induction l with
  | nil => simp [splitFirst]
  | cons x xs ih =>
    by_cases hx : x = c
    · simp [splitFirst, hx]
    · simp only [splitFirst, if_neg hx, ih, List.mem_cons, not_or]
      constructor
      · intro h
        exact ⟨fun he => hx he.symm, h⟩
      · intro h
        exact h.2

theorem splitFirst_of_not_mem {c : Char} {l : List Char} (h : c ∉ l) :
    splitFirst c l = (l, none) := by
  induction l with
  | nil => simp [splitFirst]
  | cons x xs ih =>
    simp only [List.mem_cons, not_or] at h
    have hx : ¬x = c := fun he => h.1 he.symm
    simp [splitFirst, hx, ih h.2]

theorem splitFirst_append {c : Char} {a : List Char} (b : List Char)
    (h : c ∉ a) : splitFirst c (a ++ c :: b) = (a, some b) := by
  induction a with
  | nil => simp [splitFirst]
  | cons x xs ih =>
    simp only [List.mem_cons, not_or] at h
    have hx : ¬x = c := fun he => h.1 he.symm
    simp [splitFirst, hx, ih h.2]

theorem splitFirst_some_length {c : Char} : ∀ {l a b : List Char},
    splitFirst c l = (a, some b) → a.length + 1 + b.length = l.length := by
  intro l
  induction l with
  | nil =>
    intro a b h
    simp [splitFirst] at h
  | cons x xs ih =>
    intro a b h
    by_cases hx : x = c
    · rw [splitFirst, if_pos hx] at h
      obtain ⟨rfl, hb⟩ := Prod.mk.inj h
      cases hb
      simp only [List.length_nil, List.length_cons]
      omega
    · rw [splitFirst, if_neg hx] at h
      cases hs : splitFirst c xs with
      | mk a' o =>
        simp only [hs] at h
        obtain ⟨ha, hb⟩ := Prod.mk.inj h
        cases o with
        | none => simp at hb
        | some b' =>
          cases hb
          have hlen := ih hs
          rw [← ha]
          simp only [List.length_cons]
          omega

theorem trimLeftChars_length_le (l : List Char) :
    (trimLeftChars l).length ≤ l.length :=
  (List.dropWhile_sublist (l := l) isSpaceChar).length_le

theorem trimRightChars_length_le (l : List Char) :
    (trimRightChars l).length ≤ l.length := by
  have h := (List.dropWhile_sublist (l := l.reverse) isSpaceChar).length_le
  simpa [trimRightChars] using h

theorem goTrimSpace_length_le (l : List Char) :
    (goTrimSpace l).length ≤ l.length :=
  Nat.le_trans (trimRightChars_length_le _) (trimLeftChars_length_le _)

theorem parseCmdCharsGo_fuel :
    ∀ (f g : Nat) (s : List Char), s.length ≤ f → s.length ≤ g →
      parseCmdCharsGo f s = parseCmdCharsGo g s := by
  intro f
  induction f with
  | zero =>
    intro g s hf _
    have : s = [] := List.eq_nil_of_length_eq_zero (Nat.le_zero.mp hf)
    subst this
    cases g <;> simp [parseCmdCharsGo]
  | succ f ih =>
    intro g s hf hg
    match g with
    | 0 =>
      have : s = [] := List.eq_nil_of_length_eq_zero (Nat.le_zero.mp hg)
      subst this
      simp [parseCmdCharsGo]
    | g + 1 =>
      by_cases hs : s.isEmpty
      · simp [parseCmdCharsGo, hs]
      · have hslen : 1 ≤ s.length := by
          cases s with
          | nil => simp at hs
          | cons a b => simp
        simp only [parseCmdCharsGo, hs, if_neg (by simp [hs] : ¬s.isEmpty = true)]
        have htle : (goTrimSpace s).length ≤ s.length := goTrimSpace_length_le s
        by_cases hq : (goTrimSpace s).head? = some '\"'
        · simp only [hq, if_pos rfl]
          cases hsp : splitFirst '\"' (goTrimSpace s).tail with
          | mk field o =>
            cases o with
            | none => rfl
            | some rest =>
              have hlen := splitFirst_some_length hsp
              have htail : (goTrimSpace s).tail.length ≤ s.length - 1 := by
                have := List.length_tail (goTrimSpace s)
                omega
              have hr : rest.length ≤ f := by omega
              have hr2 : rest.length ≤ g := by omega
              simp [ih g rest hr hr2]
        · simp only [hq, if_neg hq]
          cases hsp : splitFirst ' ' (goTrimSpace s) with
          | mk field o =>
            cases o with
            | none => rfl
            | some rest =>
              have hlen := splitFirst_some_length hsp
              have hr : rest.length ≤ f := by omega
              have hr2 : rest.length ≤ g := by omega
              simp [ih g rest hr hr2]

theorem parseCmdChars_eq (s : List Char) (hs : s ≠ []) :
    parseCmdChars s =
      (if (goTrimSpace s).head? = some '\"' then
        match splitFirst '\"' (goTrimSpace s).tail with
        | (field, some rest) => field :: parseCmdChars rest
        | (field, none) => [field]
      else
        match splitFirst ' ' (goTrimSpace s) with
        | (field, some rest) => field :: parseCmdChars rest
        | (field, none) => [field]) := by
  have hslen : 1 ≤ s.length := by
    cases s with
    | nil => simp at hs
    | cons a b => simp
  obtain ⟨n, hn⟩ : ∃ n, s.length = n + 1 := ⟨s.length - 1, by omega⟩
  have hne : ¬s.isEmpty := by simp [List.isEmpty_iff, hs]
  unfold parseCmdChars
  rw [hn]
  simp only [parseCmdCharsGo, if_neg (by simp [hne] : ¬s.isEmpty = true)]
  have htle : (goTrimSpace s).length ≤ s.length := goTrimSpace_length_le s
  by_cases hq : (goTrimSpace s).head? = some '\"'
  · simp only [hq, if_pos rfl]
    cases hsp : splitFirst '\"' (goTrimSpace s).tail with
    | mk field o =>
      cases o with
      | none => rfl
      | some rest =>
        have hlen := splitFirst_some_length hsp
        have htail : (goTrimSpace s).tail.length ≤ s.length - 1 := by
          have := List.length_tail (goTrimSpace s)
          omega
        have hr : rest.length ≤ n := by omega
        simp [parseCmdCharsGo_fuel n rest.length rest hr (Nat.le_refl _)]
  · simp only [hq, if_neg hq]
    cases hsp : splitFirst ' ' (goTrimSpace s) with
    | mk field o =>
      cases o with
      | none => rfl
      | some rest =>
        have hlen := splitFirst_some_length hsp
        have hr : rest.length ≤ n := by omega
        simp [parseCmdCharsGo_fuel n rest.length rest hr (Nat.le_refl _)]

theorem trimLeftChars_cons_of_nonspace {x : Char} (l : List Char)
    (hx : isSpaceChar x = false) : trimLeftChars (x :: l) = x :: l := by
  simp [trimLeftChars, List.dropWhile_cons, hx]

theorem trimLeftChars_cons_of_space {x : Char} (l : List Char)
    (hx : isSpaceChar x = true) : trimLeftChars (x :: l) = trimLeftChars l := by
  simp [trimLeftChars, List.dropWhile_cons, hx]

theorem trimRightChars_eq_self {l : List Char} (h : endsNonSpace l = true) :
    trimRightChars l = l := by
  unfold trimRightChars
  cases hr : l.reverse with
  | nil =>
    have : l = [] := by simpa using congrArg List.reverse hr
    simp [this]
  | cons c r =>
    have hlast : l.getLast? = some c := by
      rw [← List.head?_reverse, hr]
      rfl
    unfold endsNonSpace at h
    rw [hlast] at h
    simp only at h
    have hc : isSpaceChar c = false := by
      cases hcs : isSpaceChar c
      · rfl
      · rw [hcs] at h
        simp at h
    rw [List.dropWhile_cons_of_neg (by simp [hc])]
    rw [← hr, List.reverse_reverse]

theorem goTrimSpace_eq_self {l : List Char} (h1 : headNonSpace l = true)
    (h2 : endsNonSpace l = true) : goTrimSpace l = l := by
  unfold goTrimSpace
  cases l with
  | nil => simp [trimLeftChars, trimRightChars]
  | cons x xs =>
    unfold headNonSpace at h1
    simp only [List.head?_cons] at h1
    have hx : isSpaceChar x = false := by
      cases hcs : isSpaceChar x
      · rfl
      · rw [hcs] at h1
        simp at h1
    rw [trimLeftChars_cons_of_nonspace _ hx, trimRightChars_eq_self h2]

theorem goTrimSpace_cons_space (l : List Char) :
    goTrimSpace (' ' :: l) = goTrimSpace l := by
  unfold goTrimSpace
  rw [trimLeftChars_cons_of_space _ (by decide)]

theorem endsNonSpace_append {a b : List Char} (hb : b ≠ []) :
    endsNonSpace (a ++ b) = endsNonSpace b := by
  unfold endsNonSpace
  rw [List.getLast?_append]
  cases hg : b.getLast? with
  | none =>
    rw [List.getLast?_eq_none_iff] at hg
    exact absurd hg hb
  | some c => simp

theorem headNonSpace_append {a b : List Char} (ha : a ≠ []) :
    headNonSpace (a ++ b) = headNonSpace a := by
  unfold headNonSpace
  rcases a with _ | ⟨x, xs⟩
  · exact absurd rfl ha
  · simp

/-! ### Claim theorems -/

/-- C1.  The claim says a spawn failure (`StdoutPipe` or `Start` error) leaves
the Task `Idle` — `isRunning` false — with the error surfaced once to the
`start` caller.  The code does the opposite: `runTask` returns without
touching `runningTasks` (so the task the handler just inserted stays
"running" forever) and the handler has already answered `OK`.  This theorem
records the actual behaviour at the failing input: after a failed spawn the
`runningTasks` map is unchanged, and a task that was in it is still reported
as running. -/
theorem runTask_spawnFailure_keepsRunning :
    (∀ (theTaskID : String) (now : Int) (st : RunnerState),
      (runTask theTaskID SpawnOutcome.pipeError now st).runningTasks =
          st.runningTasks ∧
        (runTask theTaskID SpawnOutcome.startError now st).runningTasks =
          st.runningTasks) ∧
      taskIsRunning "abc"
        (runTask "abc" SpawnOutcome.startError 100
          { runningTasks := ["abc"], taskOutputs := [], taskStartTimes := [],
            taskStopTimes := [], taskRunTimes := [] }) = true :=
  ⟨fun _ _ _ => ⟨rfl, rfl⟩, by decide⟩

/-- C2 counterexample.  The claim says a Task whose stored secret is empty
grants access to every provided secret.  In the code, a non-empty provided
secret with an empty stored hash reaches `bcrypt.CompareHashAndPassword`
with an empty hash, which always errors (hash shorter than the minimum
encoded size) — even under a bcrypt matcher that accepts everything on
well-formed hashes, the request is refused with "incorrect secret". -/
theorem authorizeNoToken_emptySecret_refuted :
    (authorizeNoToken (fun _ _ => true) "wrongsecret" "").1 = false ∧
      (authorizeNoToken (fun _ _ => true) "wrongsecret" "").2 =
        "incorrect secret" := by
  decide

/-- C2 (amended).  For a request with no token: authorised iff the provided
secret and the stored secret are both empty, or the stored secret is a
well-formed bcrypt hash (at least 59 bytes) that verifies against the
provided secret.  In particular a Task with empty stored secret admits
exactly the empty provided secret, and every failure reports
"incorrect secret". -/
theorem authorizeNoToken_characterization :
    ∀ (hashMatches : String → String → Bool) (providedSecret storedSecret : String),
      ((authorizeNoToken hashMatches providedSecret storedSecret).1 = true ↔
        ((providedSecret = "" ∧ storedSecret = "") ∨
          (59 ≤ storedSecret.length ∧
            hashMatches storedSecret providedSecret = true))) ∧
      ((authorizeNoToken hashMatches providedSecret storedSecret).1 = false →
        (authorizeNoToken hashMatches providedSecret storedSecret).2 =
          "incorrect secret") ∧
      ((authorizeNoToken hashMatches providedSecret "").1 = true ↔
        providedSecret = "") := by
  intro hashMatches p h
  have hck : ∀ h' : String,
      (checkPasswordHash hashMatches p h' = true ↔
        ((p = "" ∧ h' = "") ∨
          (59 ≤ h'.length ∧ hashMatches h' p = true))) := by
    intro h'
    unfold checkPasswordHash bcryptCompareOk
    by_cases hp : p = "" ∧ h' = ""
    · simp [hp.1, hp.2]
    · have hb : (p = "" && h' = "") = false := by
        rcases hp' : decide (p = "") with _ | _ <;>
          rcases hh' : decide (h' = "") with _ | _ <;>
            simp_all
      rw [hb, if_neg (by simp : ¬false = true)]
      by_cases hlen : h'.length < 59
      · rw [if_pos hlen]
        refine iff_of_false (by simp) ?_
        rintro (⟨hp1, hp2⟩ | ⟨h59, _⟩)
        · exact hp ⟨hp1, hp2⟩
        · omega
      · rw [if_neg hlen]
        constructor
        · intro hm
          exact Or.inr ⟨by omega, hm⟩
        · rintro (⟨hp1, hp2⟩ | ⟨_, hm⟩)
          · exact absurd ⟨hp1, hp2⟩ hp
          · exact hm
  have hchar : ∀ h' : String,
      (authorizeNoToken hashMatches p h').1 = true ↔
        ((p = "" ∧ h' = "") ∨
          (59 ≤ h'.length ∧ hashMatches h' p = true)) := by
    intro h'
    rw [← hck h']
    unfold authorizeNoToken
    by_cases hc : checkPasswordHash hashMatches p h' = true
    · simp [hc]
    · simp only [Bool.not_eq_true] at hc
      simp [hc]
  refine ⟨hchar h, ?_, ?_⟩
  · intro hfail
    unfold authorizeNoToken at hfail ⊢
    by_cases hc : checkPasswordHash hashMatches p h = true
    · simp [hc] at hfail
    · simp only [Bool.not_eq_true] at hc
      simp [hc]
  · rw [hchar ""]
    constructor
    · rintro (⟨hp, _⟩ | ⟨hlen, _⟩)
      · exact hp
      · simp at hlen
    · intro hp
      exact Or.inl ⟨hp, rfl⟩

/-- C2 witness. -/
theorem authorizeNoToken_characterization_witness :
    (authorizeNoToken (fun _ _ => false) "x" "").2 = "incorrect secret" :=
  (authorizeNoToken_characterization (fun _ _ => false) "x" "").2.1 (by decide)

/-- C3.  The claim says a missing/malformed command line makes `start` fail
with a `SpawnError` and the handler return normally.  In the code an empty
command tokenizes to an empty slice and the unguarded `commandArray[0]` read
then panics (index out of range) before any response is produced; the theorem
evaluates the embedded handler at the failing input and shows the panic
outcome with no process spawned. -/
theorem runTaskHandler_emptyCommand_panics :
    parseCommandString "" = [] ∧ buildCommand "" = none ∧
      runTaskHandler false 100 0 0 "" =
        { result := StartResult.panicked, spawned := none } := by
  decide

/-- C7.  With the Task not already running: a start at `currentTimestamp`
with `currentTimestamp - stopTime < rateLimit` is refused with a rate-limit
result carrying the limit and the remaining wait
`rateLimit - (currentTimestamp - stopTime)`, and spawns nothing; with
`rateLimit ≤ currentTimestamp - stopTime` the call is never rate-limited. -/
theorem runTaskHandler_rateLimited_iff :
    ∀ (currentTimestamp stopTime rateLimit : Int) (command : String),
      (currentTimestamp - stopTime < rateLimit →
        runTaskHandler false currentTimestamp stopTime rateLimit command =
          { result := StartResult.rateLimited rateLimit
              (rateLimit - (currentTimestamp - stopTime)),
            spawned := none }) ∧
      (rateLimit ≤ currentTimestamp - stopTime →
        ∀ (l r : Int),
          (runTaskHandler false currentTimestamp stopTime rateLimit
              command).result ≠ StartResult.rateLimited l r) := by
  intro now stop rl cmd
  constructor
  · intro hlt
    simp [runTaskHandler, hlt]
  · intro hge l r
    have hnlt : ¬now - stop < rl := not_lt.mpr hge
    cases hb : buildCommand cmd with
    | none => simp [runTaskHandler, hnlt, hb]
    | some pa => simp [runTaskHandler, hnlt, hb]

/-- C7 witness. -/
theorem runTaskHandler_rateLimited_iff_witness :
    runTaskHandler false 5 0 10 "ls" =
      { result := StartResult.rateLimited 10 5, spawned := none } := by
  have h := (runTaskHandler_rateLimited_iff 5 0 10 "ls").1 (by decide)
  simpa using h

/-- C9.  When the Task's `progress` flag is "Y", every `getTaskOutput` call
appends exactly one synthetic progress line to the STORED output buffer —
the buffer grows by one line per poll, and the update is the same whether or
not the Task is still running: polling is not read-only. -/
theorem getTaskOutputPoll_progress_appends :
    ∀ (running : Bool) (rawPercentage : Int) (outputLineNumber : Nat)
      (buffer : List String),
      (getTaskOutputPoll "Y" running rawPercentage outputLineNumber
            buffer).newBuffer =
          buffer ++ [progressLine (capPct rawPercentage)] ∧
        (getTaskOutputPoll "Y" running rawPercentage outputLineNumber
              buffer).newBuffer.length = buffer.length + 1 ∧
        (getTaskOutputPoll "Y" true rawPercentage outputLineNumber
              buffer).newBuffer =
          (getTaskOutputPoll "Y" false rawPercentage outputLineNumber
              buffer).newBuffer := by
  intro running p line buf
  refine ⟨rfl, ?_, rfl⟩
  simp [getTaskOutputPoll]

theorem lookupA_eq_none_of_not_mem_keys {κ α : Type} [DecidableEq κ]
    {m : List (κ × α)} {k : κ} (h : k ∉ m.map Prod.fst) :
    lookupA m k = none := by
  induction m with
  | nil => rfl
  | cons p rest ih =>
    simp only [List.map_cons, List.mem_cons, not_or] at h
    have hp : ¬p.1 = k := fun he => h.1 he.symm
    rw [lookupA_cons, if_neg hp]
    exact ih h.2

theorem lookupA_filter_of_nodup {α : Type} (q : String × α → Bool) :
    ∀ (m : List (String × α)) (k : String) (v : α),
      (m.map Prod.fst).Nodup → lookupA m k = some v →
      lookupA (m.filter q) k = if q (k, v) then some v else none := by
  intro m
  induction m with
  | nil =>
    intro k v _ hl
    simp [lookupA_nil] at hl
  | cons p rest ih =>
    intro k v hnd hl
    obtain ⟨pk, pv⟩ := p
    simp only [List.map_cons, List.nodup_cons] at hnd
    by_cases hp : pk = k
    · rw [lookupA_cons, if_pos hp] at hl
      simp only [Option.some.injEq] at hl
      subst hp
      subst hl
      by_cases hq : q (pk, pv) = true
      · simp only [List.filter_cons, hq]
        rw [if_pos trivial, if_pos trivial, lookupA_cons, if_pos rfl]
      · simp only [Bool.not_eq_true] at hq
        simp only [List.filter_cons, hq]
        rw [if_neg (by simp [hq]), if_neg (by simp [hq])]
        apply lookupA_eq_none_of_not_mem_keys
        intro hmem
        apply hnd.1
        have hsub : (rest.filter q).map Prod.fst ⊆ rest.map Prod.fst :=
          List.map_subset _ (List.filter_sublist rest).subset
        exact hsub hmem
    · rw [lookupA_cons, if_neg hp] at hl
      have hres := ih k v hnd.2 hl
      by_cases hq : q (pk, pv) = true
      · simp only [List.filter_cons, hq]
        rw [if_pos trivial, lookupA_cons, if_neg hp]
        exact hres
      · simp only [Bool.not_eq_true] at hq
        simp only [List.filter_cons, hq]
        rw [if_neg (by simp [hq])]
        exact hres

theorem lookupA_insertA_self {κ α : Type} [DecidableEq κ]
    (m : List (κ × α)) (k : κ) (v : α) :
    lookupA (insertA m k v) k = some v := by
  induction m with
  | nil =>
    rw [insertA]
    simp only [List.any_nil, Bool.false_eq_true, if_false, List.nil_append]
    rw [lookupA_cons, if_pos rfl]
  | cons p rest ih =>
    by_cases hp : p.1 = k
    · have hany : (p :: rest).any (fun q => q.1 = k) = true := by
        simp [List.any_cons, hp]
      rw [insertA, hany, if_pos rfl]
      simp only [List.map_cons, if_pos hp]
      rw [lookupA_cons, if_pos rfl]
    · by_cases hr : rest.any (fun q => q.1 = k) = true
      · have hany : (p :: rest).any (fun q => q.1 = k) = true := by
          simp [List.any_cons, hr]
        rw [insertA, hany, if_pos rfl]
        simp only [List.map_cons, if_neg hp]
        rw [lookupA_cons, if_neg hp]
        have hprev := ih
        rw [insertA, hr, if_pos rfl] at hprev
        exact hprev
      · have hany : (p :: rest).any (fun q => q.1 = k) = false := by
          simp only [Bool.not_eq_true] at hr
          simp [List.any_cons, hp, hr]
        rw [insertA, hany]
        simp only [Bool.false_eq_true, if_false, List.cons_append]
        rw [lookupA_cons, if_neg hp]
        have hr2 : rest.any (fun q => q.1 = k) = false := by
          cases hv : rest.any (fun q => q.1 = k)
          · rfl
          · exact absurd hv hr
        have hprev := ih
        rw [insertA, hr2] at hprev
        simp only [Bool.false_eq_true, if_false] at hprev
        exact hprev

/-- C4.  Token lifecycle: the timeout constants are 600 and 60 seconds; a
token present in the map with a (real, positive) timestamp passes the
handler's validity check no matter how old it is — staleness is bounded only
by the sweep; one sweep pass at time `now` keeps a stored token iff
`now - timestamp ≤ tokenTimeout` (it removes exactly the tokens strictly
older than `tokenTimeout` seconds), after which the validity check agrees;
and every successful authorised request overwrites the token's timestamp
with the current time. -/
theorem token_lifecycle_spec :
    tokenTimeout = 600 ∧ tokenCheckPeriod = 60 ∧
      (∀ (tokens : List (String × Int)) (token : String) (ts : Int),
        lookupA tokens token = some ts → 0 < ts →
        isValidTokenCheck tokens token = true) ∧
      (∀ (tokens : List (String × Int)) (token : String),
        lookupA tokens token = none → isValidTokenCheck tokens token = false) ∧
      (∀ (now : Int) (tokens : List (String × Int)) (token : String) (ts : Int),
        (tokens.map Prod.fst).Nodup → lookupA tokens token = some ts → 0 < ts →
        (isValidTokenCheck (clearExpiredTokensPass now tokens) token = true ↔
          now - ts ≤ tokenTimeout)) ∧
      (∀ (now : Int) (tokens : List (String × Int)) (token : String),
        lookupA (refreshToken token now tokens) token = some now) := by
  refine ⟨rfl, rfl, ?_, ?_, ?_, ?_⟩
  · intro tokens token ts hl hpos
    unfold isValidTokenCheck tokensGet
    rw [hl]
    simp only [Option.getD_some]
    simp only [Bool.not_eq_true', decide_eq_false_iff_not]
    omega
  · intro tokens token hl
    unfold isValidTokenCheck tokensGet
    rw [hl]
    simp
  · intro now tokens token ts hnd hl hpos
    unfold clearExpiredTokensPass
    have hfl := lookupA_filter_of_nodup
      (fun p => !(now - tokenTimeout > p.2)) tokens token ts hnd hl
    unfold isValidTokenCheck tokensGet
    by_cases hkeep : now - ts ≤ tokenTimeout
    · rw [if_pos (by simp; omega)] at hfl
      rw [hfl]
      simp only [Option.getD_some]
      refine iff_of_true ?_ hkeep
      simp only [Bool.not_eq_true', decide_eq_false_iff_not]
      omega
    · rw [if_neg (by simp; omega)] at hfl
      rw [hfl]
      simp only [Option.getD_none]
      refine iff_of_false (by simp) hkeep
  · intro now tokens token
    exact lookupA_insertA_self tokens token now

/-- C4 witness. -/
theorem token_lifecycle_spec_witness :
    isValidTokenCheck (clearExpiredTokensPass 500 [("t", 100)]) "t" = true :=
  (token_lifecycle_spec.2.2.2.2.1 500 [("t", 100)] "t" 100 (by decide)
    (by decide) (by decide)).mpr (by decide)

theorem parseConfigLine_isSome_iff (line : List Char) :
    (parseConfigLine line).isSome = true ↔ ':' ∈ line := by
  unfold parseConfigLine
  cases hsp : splitFirst ':' line with
  | mk key o =>
    cases o with
    | none =>
      have : (splitFirst ':' line).2 = none := by rw [hsp]
      rw [splitFirst_snd_none_iff] at this
      simp [this]
    | some value =>
      have hsome : ¬(splitFirst ':' line).2 = none := by rw [hsp]; simp
      rw [splitFirst_snd_none_iff] at hsome
      simp only [not_not] at hsome
      simp [hsome]

/-- C10.  The `getTaskDetails` line parser splits each config line on ':' and
unconditionally reads the second part, so the scanner loop completes (returns
a details map rather than hitting the out-of-range read, modelled as `none`)
exactly when every line of the file contains a colon — a single line with no
':' makes the parse access an out-of-range index instead of skipping the
line. -/
theorem applyConfigLines_isSome_iff :
    ∀ (lines : List (List Char)) (details : List (List Char × List Char)),
      (applyConfigLines lines details).isSome = true ↔
        ∀ line ∈ lines, ':' ∈ line := by
  intro lines
  induction lines with
  | nil =>
    intro details
    simp [applyConfigLines]
  | cons line rest ih =>
    intro details
    cases hpl : parseConfigLine line with
    | none =>
      have hmem : ':' ∉ line := by
        rw [← parseConfigLine_isSome_iff]
        simp [hpl]
      simp [applyConfigLines, hpl, hmem]
    | some kv =>
      have hmem : ':' ∈ line := by
        rw [← parseConfigLine_isSome_iff]
        simp [hpl]
      simp only [applyConfigLines, hpl, ih, List.mem_cons]
      constructor
      · intro hall l hl
        rcases hl with rfl | hl
        · exact hmem
        · exact hall l hl
      · intro hall l hl
        exact hall l (Or.inr hl)

theorem foldl_add_nonneg (l : List Int) :
    ∀ (init : Int), 0 ≤ init → (∀ x ∈ l, 0 ≤ x) →
      0 ≤ l.foldl (fun a b => a + b) init := by
  induction l with
  | nil =>
    intro init h _
    simpa using h
  | cons x xs ih =>
    intro init hinit hall
    simp only [List.foldl_cons]
    exact ih (init + x)
      (by have := hall x (by simp); omega)
      (fun y hy => hall y (by simp [hy]))

/-- C8.  `estimateDuration` returns the fixed default 10 for an empty
history, and for a non-empty history of (non-negative) durations it returns
the arithmetic mean rounded down: the unique `q` with
`q * n ≤ sum < (q + 1) * n` where `n` is the history length — the Go code
computes `totalRunTime / int64(len)` with integer division before the float
conversion. -/
theorem estimateDuration_mean_floor :
    estimateDuration [] = 10 ∧
      ∀ (history : List Int), history ≠ [] → (∀ x ∈ history, 0 ≤ x) →
        estimateDuration history * history.length ≤
            history.foldl (fun a b => a + b) 0 ∧
          history.foldl (fun a b => a + b) 0 <
            (estimateDuration history + 1) * history.length := by
  constructor
  · rfl
  · intro history hne hall
    have hlen : history.length ≠ 0 := by
      simpa [List.length_eq_zero] using hne
    have hlenpos : (0 : Int) < history.length := by
      have : 0 < history.length := Nat.pos_of_ne_zero hlen
      exact_mod_cast this
    set a := history.foldl (fun a b => a + b) 0 with ha
    set n := (history.length : Int) with hn
    have hsum : 0 ≤ a := foldl_add_nonneg history 0 le_rfl hall
    have hest : estimateDuration history = Int.tdiv a n := by
      unfold estimateDuration
      rw [if_neg hlen]
    have htd : Int.tdiv a n = a / n :=
      Int.tdiv_eq_ediv hsum (by omega)
    have hmod := Int.ediv_add_emod a n
    have hmnn : 0 ≤ a % n := Int.emod_nonneg a (by omega)
    have hmlt : a % n < n := Int.emod_lt_of_pos a hlenpos
    rw [hest, htd]
    constructor
    · nlinarith [hmod, hmnn]
    · nlinarith [hmod, hmlt]

/-- C8 witness. -/
theorem estimateDuration_mean_floor_witness :
    estimateDuration [3, 4] * ([3, 4] : List Int).length ≤
        ([3, 4] : List Int).foldl (fun a b => a + b) 0 ∧
      ([3, 4] : List Int).foldl (fun a b => a + b) 0 <
        (estimateDuration [3, 4] + 1) * ([3, 4] : List Int).length :=
  estimateDuration_mean_floor.2 [3, 4] (by decide) (by decide)

/-- C5 counterexample.  At the concrete history `[1..9]` with new duration
10 the code's trim (Go slice `[1:len-2]`, dropping the first element and the
last two each pass) leaves 7 entries, while the claim's procedure ("while
length ≥ 10 remove the smallest-index element") would leave 9 — the two
disagree, refuting the claim as stated. -/
theorem updateRunTimes_sortTrim_refuted :
    updateRunTimes [1, 2, 3, 4, 5, 6, 7, 8, 9] 10 = [2, 3, 4, 5, 6, 7, 8] ∧
      claimTrimRunTimes (sortInts ([1, 2, 3, 4, 5, 6, 7, 8, 9] ++ [10])) =
        [2, 3, 4, 5, 6, 7, 8, 9, 10] ∧
      updateRunTimes [1, 2, 3, 4, 5, 6, 7, 8, 9] 10 ≠
        claimTrimRunTimes (sortInts ([1, 2, 3, 4, 5, 6, 7, 8, 9] ++ [10])) ∧
      (updateRunTimes [1, 2, 3, 4, 5, 6, 7, 8, 9] 10).length = 7 := by
  decide

theorem trimRunTimesFuel_length_lt (fuel : Nat) :
    ∀ (l : List Int), l.length ≤ 3 * fuel + 9 →
      (trimRunTimesFuel fuel l).length < 10 := by
  induction fuel with
  | zero =>
    intro l hl
    simpa [trimRunTimesFuel] using by omega
  | succ fuel ih =>
    intro l hl
    by_cases h10 : l.length ≥ 10
    · rw [trimRunTimesFuel, if_pos h10]
      apply ih
      simp only [List.length_take, List.length_drop]
      omega
    · rw [trimRunTimesFuel, if_neg h10]
      omega

theorem trimRunTimesFuel_sorted (fuel : Nat) :
    ∀ (l : List Int), l.Sorted (fun a b => a ≤ b) →
      (trimRunTimesFuel fuel l).Sorted (fun a b => a ≤ b) := by
  induction fuel with
  | zero =>
    intro l hl
    simpa [trimRunTimesFuel] using hl
  | succ fuel ih =>
    intro l hl
    by_cases h10 : l.length ≥ 10
    · rw [trimRunTimesFuel, if_pos h10]
      apply ih
      exact hl.sublist
        (((l.drop 1).take_sublist _).trans (l.drop_sublist 1))
    · rw [trimRunTimesFuel, if_neg h10]
      exact hl

theorem sortInts_sorted (l : List Int) :
    (sortInts l).Sorted (fun a b => a ≤ b) :=
  List.sorted_insertionSort _ l

theorem sortInts_length (l : List Int) : (sortInts l).length = l.length :=
  (List.perm_insertionSort _ l).length_eq

theorem trimRunTimes_of_short {l : List Int} (h : l.length < 10) :
    trimRunTimes l = l := by
  unfold trimRunTimes
  cases hf : l.length with
  | zero => rfl
  | succ n =>
    rw [trimRunTimesFuel, if_neg (by omega)]

/-- C5 (amended).  After a completed run the runner appends the new duration,
sorts ascending, and while the length is at least 10 removes the
smallest-index element AND the two largest-index elements (the Go slice
`[1:len-2]` drops three entries per pass).  Consequently the post-trim
history always has fewer than 10 entries (so it never exceeds 10, and in fact
never exceeds 9); when no trim fires the result is just the sorted extended
history, and a 9-entry history plus one new duration is trimmed to the middle
seven of the sorted ten. -/
theorem updateRunTimes_bounded_sorted :
    ∀ (history : List Int) (runTime : Int),
      (updateRunTimes history runTime).length < 10 ∧
        (updateRunTimes history runTime).Sorted (fun a b => a ≤ b) ∧
        (history.length + 1 < 10 →
          updateRunTimes history runTime = sortInts (history ++ [runTime])) ∧
        (history.length = 9 →
          updateRunTimes history runTime =
            ((sortInts (history ++ [runTime])).drop 1).take 7) := by
  intro history runTime
  set l := sortInts (history ++ [runTime]) with hldef
  have hlen : l.length = history.length + 1 := by
    rw [hldef, sortInts_length]
    simp
  refine ⟨?_, ?_, ?_, ?_⟩
  · exact trimRunTimesFuel_length_lt l.length l (by omega)
  · exact trimRunTimesFuel_sorted l.length l (sortInts_sorted _)
  · intro hshort
    have heq : updateRunTimes history runTime = trimRunTimes l := rfl
    rw [heq, trimRunTimes_of_short (by omega)]
  · intro h9
    have hl10 : l.length = 10 := by omega
    unfold updateRunTimes trimRunTimes
    rw [← hldef, hl10]
    rw [trimRunTimesFuel, if_pos (by omega)]
    rw [hl10]
    have hlen7 : ((l.drop 1).take (10 - 3)).length = 7 := by
      simp only [List.length_take, List.length_drop]
      omega
    rw [trimRunTimesFuel, if_neg (by omega)]

/-- C5 witness. -/
theorem updateRunTimes_bounded_sorted_witness :
    updateRunTimes [5, 1, 4] 2 = sortInts ([5, 1, 4] ++ [2]) ∧
      updateRunTimes [0, 1, 2, 3, 4, 5, 6, 7, 8] 3 =
        ((sortInts ([0, 1, 2, 3, 4, 5, 6, 7, 8] ++ [3])).drop 1).take 7 :=
  ⟨(updateRunTimes_bounded_sorted [5, 1, 4] 2).2.2.1 (by decide),
    (updateRunTimes_bounded_sorted [0, 1, 2, 3, 4, 5, 6, 7, 8] 3).2.2.2
      (by decide)⟩

/-- C10 witness. -/
theorem applyConfigLines_isSome_iff_witness :
    (applyConfigLines [[':', 'a'], ['t', ':', 'x']] []).isSome = true :=
  (applyConfigLines_isSome_iff [[':', 'a'], ['t', ':', 'x']] []).mpr (by decide)

theorem wfTok_plain_parts {w : List Char} (h : wfTok (CmdTok.plain w) = true) :
    ' ' ∉ w ∧ '\"' ∉ w ∧ headNonSpace w = true ∧ endsNonSpace w = true := by
  simp only [wfTok, Bool.and_eq_true, decide_eq_true_eq] at h
  exact ⟨h.1.1.1, h.1.1.2, h.1.2, h.2⟩

theorem wfTok_quoted_parts {w : List Char} (h : wfTok (CmdTok.quoted w) = true) :
    '\"' ∉ w := by
  simpa [wfTok] using h

theorem headNonSpace_ne_nil {l : List Char} (h : headNonSpace l = true) :
    l ≠ [] := by
  cases l with
  | nil => simp [headNonSpace] at h
  | cons c cs => simp

theorem head?_ne_quote {w : List Char} (hw : w ≠ []) (hq : '\"' ∉ w) :
    ¬w.head? = some '\"' := by
  cases w with
  | nil => exact absurd rfl hw
  | cons c cs =>
    simp only [List.head?_cons, Option.some.injEq]
    intro hc
    exact hq (by simp [hc])

theorem renderTok_props {t : CmdTok} (h : wfTok t = true) :
    renderTok t ≠ [] ∧ headNonSpace (renderTok t) = true ∧
      endsNonSpace (renderTok t) = true := by
  cases t with
  | plain w =>
    obtain ⟨_, _, hh, he⟩ := wfTok_plain_parts h
    exact ⟨headNonSpace_ne_nil hh, hh, he⟩
  | quoted w =>
    refine ⟨by simp [renderTok], by rfl, ?_⟩
    show endsNonSpace ('\"' :: w ++ ['\"']) = true
    rw [show ('\"' :: w ++ ['\"']) = ('\"' :: w) ++ ['\"'] by simp]
    rw [endsNonSpace_append (by simp)]
    rfl

theorem renderToks_cons_cons (t t' : CmdTok) (r : List CmdTok) :
    renderToks (t :: t' :: r) = renderTok t ++ ' ' :: renderToks (t' :: r) :=
  rfl

theorem renderToks_ne_nil {ts : List CmdTok} (hne : ts ≠ [])
    (hwf : ∀ t ∈ ts, wfTok t = true) : renderToks ts ≠ [] := by
  cases ts with
  | nil => exact absurd rfl hne
  | cons t rest =>
    cases rest with
    | nil =>
      simpa [renderToks] using (renderTok_props (hwf t (by simp))).1
    | cons t' r =>
      rw [renderToks_cons_cons]
      intro h
      rcases List.append_eq_nil.mp h with ⟨-, h2⟩
      simp at h2

theorem headNonSpace_renderToks {t : CmdTok} {rest : List CmdTok}
    (hwf : ∀ u ∈ t :: rest, wfTok u = true) :
    headNonSpace (renderToks (t :: rest)) = true := by
  obtain ⟨hne, hh, -⟩ := renderTok_props (hwf t (by simp))
  cases rest with
  | nil => simpa [renderToks] using hh
  | cons t' r =>
    rw [renderToks_cons_cons, headNonSpace_append hne]
    exact hh

theorem endsNonSpace_renderToks : ∀ (ts : List CmdTok), ts ≠ [] →
    (∀ u ∈ ts, wfTok u = true) → endsNonSpace (renderToks ts) = true := by
  intro ts
  induction ts with
  | nil =>
    intro h
    exact absurd rfl h
  | cons t rest ih =>
    intro _ hwf
    cases rest with
    | nil =>
      simpa [renderToks] using (renderTok_props (hwf t (by simp))).2.2
    | cons t' r =>
      rw [renderToks_cons_cons]
      have hRne : renderToks (t' :: r) ≠ [] :=
        renderToks_ne_nil (by simp) (fun u hu => hwf u (by simp [hu]))
      rw [endsNonSpace_append (by simp : (' ' :: renderToks (t' :: r)) ≠ [])]
      rw [show (' ' :: renderToks (t' :: r)) =
        [' '] ++ renderToks (t' :: r) by simp]
      rw [endsNonSpace_append hRne]
      exact ih (by simp) (fun u hu => hwf u (by simp [hu]))

theorem head?_append_eq {w : List Char} (x : List Char) (hw : w ≠ []) :
    (w ++ x).head? = w.head? := by
  cases w with
  | nil => exact absurd rfl hw
  | cons c cs => rfl

theorem parseCmdChars_congr {s s' : List Char} (hs : s ≠ []) (hs' : s' ≠ [])
    (ht : goTrimSpace s = goTrimSpace s') :
    parseCmdChars s = parseCmdChars s' := by
  rw [parseCmdChars_eq s hs, parseCmdChars_eq s' hs', ht]

/-- C6 counterexample.  `parseCommandString` only splits on the space
character: a tab does not separate fields, so `"a\tb"` parses to the single
field `"a\tb"`, not to the two whitespace-separated fields the claim
predicts. -/
theorem parseCommandString_tab_refuted :
    parseCommandString "a\tb" = ["a\tb"] ∧
      parseCommandString "a\tb" ≠ ["a", "b"] := by
  decide

/-- C6 (amended).  `parseCommandString` splits a command line into fields
separated by space characters (whitespace other than a space, e.g. a tab,
does not separate fields, though whitespace around the whole line and after
each separator is trimmed), except that a field beginning with a double quote
extends to the next double quote and is returned with the quotes stripped
(it may contain spaces); no escape characters are interpreted (a backslash is
an ordinary character).  Formally: a command line rendered from any sequence
of well-formed plain/quoted tokens joined by single spaces parses to exactly
the token contents. -/
theorem parseCommandString_tokenization :
    ∀ (ts : List CmdTok), (∀ t ∈ ts, wfTok t = true) →
      parseCmdChars (renderToks ts) = ts.map tokContent := by
  intro ts
  induction ts with
  | nil =>
    intro _
    rfl
  | cons t rest ih =>
    intro hwf
    have hwt : wfTok t = true := hwf t (by simp)
    have hwrest : ∀ u ∈ rest, wfTok u = true := fun u hu => hwf u (by simp [hu])
    cases rest with
    | nil =>
      cases t with
      | plain w =>
        obtain ⟨hsp, hq, hh, he⟩ := wfTok_plain_parts hwt
        have hwne : w ≠ [] := headNonSpace_ne_nil hh
        show parseCmdChars w = [w]
        rw [parseCmdChars_eq w hwne, goTrimSpace_eq_self hh he]
        rw [if_neg (head?_ne_quote hwne hq)]
        rw [splitFirst_of_not_mem hsp]
      | quoted w =>
        have hq := wfTok_quoted_parts hwt
        obtain ⟨hne, hh, he⟩ := renderTok_props hwt
        simp only [renderTok] at hne hh he
        show parseCmdChars ('\"' :: w ++ ['\"']) = [w]
        rw [parseCmdChars_eq _ (by simp)]
        rw [goTrimSpace_eq_self hh he]
        rw [if_pos (by simp)]
        show (match splitFirst '\"' (w ++ '\"' :: []) with
          | (field, some rest) => field :: parseCmdChars rest
          | (field, none) => [field]) = [w]
        rw [splitFirst_append [] hq]
        rfl
    | cons t' r =>
      have hRwf : ∀ u ∈ t' :: r, wfTok u = true :=
        fun u hu => hwf u (by simp [hu])
      have hRne : renderToks (t' :: r) ≠ [] :=
        renderToks_ne_nil (by simp) hRwf
      have hRends : endsNonSpace (renderToks (t' :: r)) = true :=
        endsNonSpace_renderToks (t' :: r) (by simp) hRwf
      have hRparse : parseCmdChars (renderToks (t' :: r)) =
          (t' :: r).map tokContent := ih hRwf
      cases t with
      | plain w =>
        obtain ⟨hsp, hq, hh, he⟩ := wfTok_plain_parts hwt
        have hwne : w ≠ [] := headNonSpace_ne_nil hh
        rw [renderToks_cons_cons]
        show parseCmdChars (w ++ ' ' :: renderToks (t' :: r)) =
          (CmdTok.plain w :: t' :: r).map tokContent
        have hsne : w ++ ' ' :: renderToks (t' :: r) ≠ [] := by simp
        have hshead : headNonSpace (w ++ ' ' :: renderToks (t' :: r)) = true := by
          rw [headNonSpace_append hwne]
          exact hh
        have hsends : endsNonSpace (w ++ ' ' :: renderToks (t' :: r)) = true := by
          rw [endsNonSpace_append (by simp : (' ' :: renderToks (t' :: r)) ≠ [])]
          rw [show (' ' :: renderToks (t' :: r)) =
            [' '] ++ renderToks (t' :: r) by simp]
          rw [endsNonSpace_append hRne]
          exact hRends
        rw [parseCmdChars_eq _ hsne, goTrimSpace_eq_self hshead hsends]
        rw [if_neg (by
          rw [head?_append_eq _ hwne]
          exact head?_ne_quote hwne hq)]
        rw [splitFirst_append (renderToks (t' :: r)) hsp]
        show w :: parseCmdChars (renderToks (t' :: r)) = _
        rw [hRparse]
        rfl
      | quoted w =>
        have hq := wfTok_quoted_parts hwt
        rw [renderToks_cons_cons]
        show parseCmdChars
            (('\"' :: w ++ ['\"']) ++ ' ' :: renderToks (t' :: r)) =
          (CmdTok.quoted w :: t' :: r).map tokContent
        have hflat : ('\"' :: w ++ ['\"']) ++ ' ' :: renderToks (t' :: r) =
            '\"' :: w ++ '\"' :: ' ' :: renderToks (t' :: r) := by simp
        rw [hflat]
        have hsne : ('\"' :: w ++ '\"' :: ' ' :: renderToks (t' :: r)) ≠ [] := by
          simp
        have hshead :
            headNonSpace ('\"' :: w ++ '\"' :: ' ' :: renderToks (t' :: r)) =
              true := rfl
        have hsends :
            endsNonSpace ('\"' :: w ++ '\"' :: ' ' :: renderToks (t' :: r)) =
              true := by
          rw [show ('\"' :: w ++ '\"' :: ' ' :: renderToks (t' :: r)) =
            ('\"' :: w ++ ['\"', ' ']) ++ renderToks (t' :: r) by simp]
          rw [endsNonSpace_append hRne]
          exact hRends
        rw [parseCmdChars_eq _ hsne, goTrimSpace_eq_self hshead hsends]
        rw [if_pos (by simp)]
        show (match splitFirst '\"' (w ++ '\"' :: ' ' :: renderToks (t' :: r)) with
          | (field, some rest) => field :: parseCmdChars rest
          | (field, none) => [field]) = _
        rw [splitFirst_append (' ' :: renderToks (t' :: r)) hq]
        show w :: parseCmdChars (' ' :: renderToks (t' :: r)) = _
        rw [parseCmdChars_congr (by simp) hRne
          (goTrimSpace_cons_space (renderToks (t' :: r)))]
        rw [hRparse]
        rfl

/-- C6 witness. -/
theorem parseCommandString_tokenization_witness :
    parseCmdChars
        (renderToks
          [CmdTok.plain ['e', 'c', 'h', 'o'], CmdTok.quoted ['h', 'i', ' ', 'u'],
            CmdTok.plain ['a', '\\', 'b']]) =
      [['e', 'c', 'h', 'o'], ['h', 'i', ' ', 'u'], ['a', '\\', 'b']] :=
  parseCommandString_tokenization
    [CmdTok.plain ['e', 'c', 'h', 'o'], CmdTok.quoted ['h', 'i', ' ', 'u'],
      CmdTok.plain ['a', '\\', 'b']] (by decide)

end WebConsole
